import Mathlib

/-!
Shallow embedding of the rebalancing round-trip protocol implemented by
`src/MPI_Improved.cpp` and `src/unnamed/part_000`.

A run is determined by the per-peer input batches (`batches : List (List Int)`,
one entry per rank, in rank order; `batches.length` is the group size P) and by
the elementwise transform.  The source hardcodes the transform
`sin(x * atan(1) / 45.0)`; the spec treats the transform as a pluggable,
side-effect-free elementwise function supplied by an external collaborator, so
the embedding is parameterised by an arbitrary `f : Int → β` together with the
value `d : β` used for the zero-initialisation of the C++ result buffers
(`vector<float>(n)` value-initialises its elements).

The four transport collectives are out of scope for the spec and are modelled
at their contract level:
* `MPI_Gather` of one scalar per rank delivers the rank-indexed vector to the
  coordinator (rank 0);
* `MPI_Gatherv` writes peer i's contribution, truncated to the coordinator's
  declared count, at the coordinator's declared displacement into a pre-sized,
  value-initialised receive buffer (modelled by `gatherv` below as the fold of
  the per-peer writes);
* `MPI_Scatter` of one scalar per rank hands entry i of the coordinator's
  vector to rank i;
* `MPI_Scatterv` delivers to rank i the `counts[i]` elements starting at
  displacement `offs[i]` of the coordinator's buffer (modelled by `scatterv`).
-/

set_option autoImplicit false

namespace MPI

/-- Exclusive prefix scan with running total `s`.  This is the displacement
loop of the source (`MPI_Improved.cpp` lines 96-105 and 176-183):
`d.push_back(0); for (i = 0; i < total_ranks - 1; i++) d.push_back(d[i] + counts[i]);`
which, applied to a count vector of length P ≥ 1, produces
`[0, c₀, c₀+c₁, …, c₀+⋯+c_{P-2}]`, i.e. `exclusiveScan 0 counts`. -/
def exclusiveScan : Nat → List Nat → List Nat
  | _, [] => []
  | s, c :: cs => s :: exclusiveScan (s + c) cs

/-- Add 1 to each of the first `r` entries of a list.  This is the remainder
loop of the balancing step (`MPI_Improved.cpp` lines 149-152, `part_000`
lines 142-145): `for (i = 0; i < remainder; i++) arr[i] += 1;`. -/
def incFirst : Nat → List Nat → List Nat
  | _, [] => []
  | 0, l => l
  | r + 1, c :: cs => (c + 1) :: incFirst r cs

/-- Overwrite `buf` starting at position `pos` with `chunk`: the effect of one
peer's contribution landing in the coordinator's receive buffer during
`MPI_Gatherv`. -/
def storeChunk {β : Type} (buf chunk : List β) (pos : Nat) : List β :=
  buf.take pos ++ chunk ++ buf.drop (pos + chunk.length)

/-- Fold of the per-peer writes of a variable-length gather: each triple is
one peer's contribution together with the coordinator-declared count and
displacement for that peer. -/
def gathervLoop {β : Type} : List β → List (List β × Nat × Nat) → List β
  | buf, [] => buf
  | buf, (chunk, cnt, off) :: rest =>
      gathervLoop (storeChunk buf (chunk.take cnt) off) rest

/-- Coordinator-side result of `MPI_Gatherv`: contributions of all ranks, in
rank order, written at the declared displacements into a pre-sized,
value-initialised buffer. -/
def gatherv {β : Type} (chunks : List (List β)) (counts offs : List Nat)
    (bufSize : Nat) (d : β) : List β :=
  gathervLoop (List.replicate bufSize d) (chunks.zip (counts.zip offs))

/-- Rank i's received data from `MPI_Scatterv`: the `counts[i]` elements of
the coordinator's buffer starting at displacement `offs[i]`. -/
def scatterv {β : Type} (buf : List β) (counts offs : List Nat) (i : Nat) : List β :=
  (buf.drop (offs.getD i 0)).take (counts.getD i 0)

namespace MPIImproved

/-- The count vector gathered at rank 0 (`MPI_Gather` of each rank's
`num_elements`, `MPI_Improved.cpp` line 78): entry i is the length of rank i's
`original_array`. -/
def number_of_elements_array (batches : List (List Int)) : List Nat :=
  batches.map List.length

/-- `total_elements` as computed at rank 0 (line 84): `accumulate` over the
gathered count vector. -/
def total_elements (batches : List (List Int)) : Nat :=
  (number_of_elements_array batches).sum

/-- `displacements_array_2` (lines 96-105): exclusive prefix sums of the
original count vector. -/
def displacements_array_2 (batches : List (List Int)) : List Nat :=
  exclusiveScan 0 (number_of_elements_array batches)

/-- `combined_task_array` (lines 111-114): `MPI_Gatherv` of every rank's
`original_array` into a buffer of size `total_elements`, at the displacements
`displacements_array_2`, with counts `number_of_elements_array`.
`vector<int>(n)` value-initialises to 0. -/
def combined_task_array (batches : List (List Int)) : List Int :=
  gatherv batches (number_of_elements_array batches) (displacements_array_2 batches)
    (total_elements batches) 0

/-- `redistributed_number_of_elements_array` (lines 139-152): the fill loop
sets every entry to `base_avg = total_elements / total_ranks`, then the
remainder loop adds 1 to the first `total_elements % total_ranks` entries. -/
def redistributed_number_of_elements_array (N P : Nat) : List Nat :=
  incFirst (N % P) (List.replicate P (N / P))

/-- `num_received_tasks` at rank i (line 158): `MPI_Scatter` hands entry i of
the redistributed count vector to rank i. -/
def num_received_tasks (batches : List (List Int)) (i : Nat) : Nat :=
  (redistributed_number_of_elements_array (total_elements batches) batches.length).getD i 0

/-- `displacements_array_3` (lines 176-183): exclusive prefix sums of the
redistributed count vector. -/
def displacements_array_3 (batches : List (List Int)) : List Nat :=
  exclusiveScan 0 (redistributed_number_of_elements_array (total_elements batches) batches.length)

/-- `task_array` at rank i (lines 187-188): `MPI_Scatterv` of
`combined_task_array` driven by the redistributed counts and
`displacements_array_3`. -/
def task_array (batches : List (List Int)) (i : Nat) : List Int :=
  scatterv (combined_task_array batches)
    (redistributed_number_of_elements_array (total_elements batches) batches.length)
    (displacements_array_3 batches) i

/-- `results_array` at rank i (lines 204-209): the transform applied
elementwise, in index order, to the received task chunk. -/
def results_array {β : Type} (f : Int → β) (batches : List (List Int)) (i : Nat) : List β :=
  (task_array batches i).map f

/-- `combined_results_array` (lines 213-215): `MPI_Gatherv` of the per-rank
result chunks, driven by the same redistributed counts and
`displacements_array_3`; the buffer of size `total_elements` is
value-initialised to `d`. -/
def combined_results_array {β : Type} (f : Int → β) (d : β) (batches : List (List Int)) : List β :=
  gatherv ((List.range batches.length).map (results_array f batches))
    (redistributed_number_of_elements_array (total_elements batches) batches.length)
    (displacements_array_3 batches) (total_elements batches) d

/-- `final_results_array` at rank i (lines 229-232): `MPI_Scatterv` of the
combined results back along the original counts and `displacements_array_2`. -/
def final_results_array {β : Type} (f : Int → β) (d : β) (batches : List (List Int))
    (i : Nat) : List β :=
  scatterv (combined_results_array f d batches)
    (number_of_elements_array batches) (displacements_array_2 batches) i

/-- Initialisation state of the `total_elements` variable of
`MPI_Improved.cpp`: it is declared without an initialiser (line 75) and
assigned only inside the `if (my_rank == 0)` block (line 84), so after the
count-collection phase it holds a value on rank 0 and is indeterminate on
every other rank.  `numbers` is the gathered count vector. -/
def total_elements_value (my_rank : Nat) (numbers : List Nat) : Option Nat :=
  if my_rank = 0 then some numbers.sum else none

/-- The size expression `vector<int> combined_task_array(total_elements)`
(line 111) as executed on rank `my_rank`: it reads `total_elements`, whose
initialisation state is `total_elements_value`.  The same value is read again
for `vector<float> combined_results_array(total_elements)` (line 213). -/
def combined_task_array_size (my_rank : Nat) (numbers : List Nat) : Option Nat :=
  total_elements_value my_rank numbers

end MPIImproved

namespace Part000

/-- `total_elements_array` gathered at rank 0 (`part_000` line 87): entry i is
the length of rank i's `original_array`. -/
def total_elements_array (batches : List (List Int)) : List Nat :=
  batches.map List.length

/-- `total_elements` at rank 0 (line 90): `accumulate` over the gathered
count vector.  In `part_000` this lives inside the `my_rank == 0` branch, so
no other rank ever reads it. -/
def total_elements (batches : List (List Int)) : Nat :=
  (total_elements_array batches).sum

/-- `displacements_array_2` (lines 103-110): exclusive prefix sums of the
original count vector. -/
def displacements_array_2 (batches : List (List Int)) : List Nat :=
  exclusiveScan 0 (total_elements_array batches)

/-- `combined_elements_array` (lines 96, 113-115): `MPI_Gatherv` of every
rank's `original_array`. -/
def combined_elements_array (batches : List (List Int)) : List Int :=
  gatherv batches (total_elements_array batches) (displacements_array_2 batches)
    (total_elements batches) 0

/-- `equalized_total_elements_array` (lines 136-145): constructed as
`vector<int>(total_ranks, base_avg)` with `base_avg = N / P`, then the
remainder loop adds 1 to the first `N % P` entries. -/
def equalized_total_elements_array (N P : Nat) : List Nat :=
  incFirst (N % P) (List.replicate P (N / P))

/-- `num_received_tasks` at rank i (lines 148, 219): `MPI_Scatter` hands
entry i of the equalized count vector to rank i. -/
def num_received_tasks (batches : List (List Int)) (i : Nat) : Nat :=
  (equalized_total_elements_array (total_elements batches) batches.length).getD i 0

/-- `displacements_array_3` (lines 165-172): exclusive prefix sums of the
equalized count vector. -/
def displacements_array_3 (batches : List (List Int)) : List Nat :=
  exclusiveScan 0 (equalized_total_elements_array (total_elements batches) batches.length)

/-- `task_array` at rank i: rank 0 sizes its buffer and declares its receive
count as `equalized_total_elements_array[my_rank]` (lines 160, 176-177) while
every other rank uses the scattered `num_received_tasks` (lines 222-223); both
receive the `MPI_Scatterv` slice for rank i, truncated to the declared
receive count. -/
def task_array (batches : List (List Int)) (i : Nat) : List Int :=
  (scatterv (combined_elements_array batches)
      (equalized_total_elements_array (total_elements batches) batches.length)
      (displacements_array_3 batches) i).take
    (if i = 0 then
      (equalized_total_elements_array (total_elements batches) batches.length).getD 0 0
    else num_received_tasks batches i)

/-- `results_array` at rank i: the transform applied elementwise to the task
chunk, inside the coordinator branch for rank 0 (lines 188-193) and inside
the worker branch for the others (lines 233-237). -/
def results_array {β : Type} (f : Int → β) (batches : List (List Int)) (i : Nat) : List β :=
  (task_array batches i).map f

/-- `combined_results_array` (lines 196-198): `MPI_Gatherv` of the per-rank
result chunks driven by the equalized counts and `displacements_array_3`. -/
def combined_results_array {β : Type} (f : Int → β) (d : β) (batches : List (List Int)) : List β :=
  gatherv ((List.range batches.length).map (results_array f batches))
    (equalized_total_elements_array (total_elements batches) batches.length)
    (displacements_array_3 batches) (total_elements batches) d

/-- `final_results_array` at rank i (lines 78, 208-209, 243): `MPI_Scatterv`
of the combined results back along the original counts and
`displacements_array_2`. -/
def final_results_array {β : Type} (f : Int → β) (d : β) (batches : List (List Int))
    (i : Nat) : List β :=
  scatterv (combined_results_array f d batches)
    (total_elements_array batches) (displacements_array_2 batches) i

end Part000

/-! ### Generic lemmas about the building blocks -/

theorem exclusiveScan_length (counts : List Nat) : ∀ s : Nat,
    (exclusiveScan s counts).length = counts.length := by
  induction counts with
  | nil => intro s; rfl
  | cons c cs ih => intro s; simp [exclusiveScan, ih]

theorem exclusiveScan_getD (counts : List Nat) : ∀ s i : Nat, i < counts.length →
    (exclusiveScan s counts).getD i 0 = s + (counts.take i).sum := by
  induction counts with
  | nil => intro s i h; simp at h
  | cons c cs ih =>
      intro s i h
      cases i with
      | zero => simp [exclusiveScan]
      | succ i =>
          simp only [exclusiveScan, List.getD_cons_succ, List.take_succ_cons, List.sum_cons]
          rw [ih (s + c) i (by simpa using h)]
          omega

theorem take_sum_le (counts : List Nat) (i : Nat) : (counts.take i).sum ≤ counts.sum := by
  conv_rhs => rw [← List.take_append_drop i counts]
  rw [List.sum_append]
  exact Nat.le_add_right _ _

theorem take_sum_mono (counts : List Nat) {i j : Nat} (h : i ≤ j) :
    (counts.take i).sum ≤ (counts.take j).sum := by
  have h1 : (counts.take j).take i = counts.take i := by
    rw [List.take_take, Nat.min_eq_left h]
  calc (counts.take i).sum = ((counts.take j).take i).sum := by rw [h1]
    _ ≤ (counts.take j).sum := take_sum_le _ _

theorem take_sum_succ (counts : List Nat) (i : Nat) (h : i < counts.length) :
    (counts.take (i + 1)).sum = (counts.take i).sum + counts.getD i 0 := by
  rw [List.take_succ, List.sum_append, List.getD_eq_getElem counts 0 h]
  simp [List.getElem?_eq_getElem h]

theorem getD_drop (l : List Nat) (n i : Nat) : (l.drop n).getD i 0 = l.getD (n + i) 0 := by
  simp [List.getD, List.getElem?_drop]

theorem incFirst_length (r : Nat) (l : List Nat) : (incFirst r l).length = l.length := by
  induction l generalizing r with
  | nil => cases r <;> rfl
  | cons c cs ih =>
      cases r with
      | zero => rfl
      | succ r => simp [incFirst, ih]

theorem incFirst_getD (r : Nat) (l : List Nat) (i : Nat) (h : i < l.length) :
    (incFirst r l).getD i 0 = if i < r then l.getD i 0 + 1 else l.getD i 0 := by
  induction l generalizing r i with
  | nil => simp at h
  | cons c cs ih =>
      cases r with
      | zero => simp [incFirst]
      | succ r =>
          cases i with
          | zero => simp [incFirst]
          | succ i =>
              simp only [incFirst, List.getD_cons_succ]
              rw [ih r i (by simpa using h)]
              simp [Nat.succ_lt_succ_iff]

theorem incFirst_sum (r : Nat) (l : List Nat) (h : r ≤ l.length) :
    (incFirst r l).sum = l.sum + r := by
  induction l generalizing r with
  | nil =>
      simp only [List.length_nil, Nat.le_zero] at h
      subst h; rfl
  | cons c cs ih =>
      cases r with
      | zero => simp [incFirst]
      | succ r =>
          simp only [incFirst, List.sum_cons]
          rw [ih r (by simpa using h)]
          omega

theorem mem_incFirst {x r : Nat} {l : List Nat} (h : x ∈ incFirst r l) :
    ∃ y ∈ l, x = y ∨ x = y + 1 := by
  induction l generalizing r with
  | nil => cases r <;> simp [incFirst] at h
  | cons c cs ih =>
      cases r with
      | zero =>
          exact ⟨x, by simpa [incFirst] using h, Or.inl rfl⟩
      | succ r =>
          simp only [incFirst, List.mem_cons] at h
          rcases h with h | h
          · exact ⟨c, List.mem_cons_self c cs, Or.inr h⟩
          · rcases ih h with ⟨y, hy, hxy⟩
            exact ⟨y, List.mem_cons_of_mem c hy, hxy⟩

theorem storeChunk_append {β : Type} (front tail chunk : List β) :
    storeChunk (front ++ tail) chunk front.length =
      front ++ chunk ++ tail.drop chunk.length := by
  unfold storeChunk
  rw [List.take_left, List.drop_append, List.append_assoc]

/-- Invariant of the variable-length gather loop: once the first peers have
filled the prefix `front` of the buffer, processing the remaining
contributions — whose declared counts are their exact lengths and whose
declared displacements continue the exclusive scan from `front.length` —
fills the rest of the buffer with their concatenation. -/
theorem gathervLoop_eq_flatten {β : Type} (chunks : List (List β)) :
    ∀ (front : List β) (d : β),
    gathervLoop (front ++ List.replicate ((chunks.map List.length).sum) d)
      (chunks.zip ((chunks.map List.length).zip
        (exclusiveScan front.length (chunks.map List.length)))) =
      front ++ chunks.flatten := by
  induction chunks with
  | nil => intro front d; simp [gathervLoop]
  | cons c cs ih =>
      intro front d
      simp only [List.map_cons, List.sum_cons, exclusiveScan, List.zip_cons_cons,
        List.flatten_cons]
      rw [gathervLoop, List.take_length, storeChunk_append,
        List.drop_replicate, Nat.add_sub_cancel_left]
      have hlen : front.length + c.length = (front ++ c).length := by
        simp
      rw [hlen, ih (front ++ c) d, List.append_assoc]

/-- When the declared counts are exactly the contribution lengths and the
displacements their exclusive prefix sums, a variable-length gather into a
buffer of the total size produces the concatenation of the contributions in
rank order. -/
theorem gatherv_eq_flatten {β : Type} (chunks : List (List β)) (d : β) :
    gatherv chunks (chunks.map List.length)
      (exclusiveScan 0 (chunks.map List.length))
      ((chunks.map List.length).sum) d = chunks.flatten := by
  have h := gathervLoop_eq_flatten chunks [] d
  simpa [gatherv] using h

theorem scatterv_scan_length {β : Type} (L : List β) (counts : List Nat) (i : Nat)
    (hsum : counts.sum ≤ L.length) (hi : i < counts.length) :
    (scatterv L counts (exclusiveScan 0 counts) i).length = counts.getD i 0 := by
  unfold scatterv
  rw [List.length_take, List.length_drop,
    exclusiveScan_getD counts 0 i hi, Nat.zero_add]
  have h1 : (counts.take i).sum + counts.getD i 0 ≤ counts.sum := by
    rw [← take_sum_succ counts i hi]
    exact take_sum_le counts (i + 1)
  omega

theorem scatterv_map {β γ : Type} (f : β → γ) (L : List β) (counts offs : List Nat)
    (i : Nat) : scatterv (L.map f) counts offs i = (scatterv L counts offs i).map f := by
  unfold scatterv
  rw [← List.map_drop, ← List.map_take]

/-- Slicing the concatenation of the per-peer batches at the exclusive prefix
sums of their lengths recovers exactly the i-th batch. -/
theorem scatterv_flatten {β : Type} (ls : List (List β)) : ∀ i : Nat, i < ls.length →
    scatterv ls.flatten (ls.map List.length)
      (exclusiveScan 0 (ls.map List.length)) i = ls.getD i [] := by
  induction ls with
  | nil => intro i hi; simp at hi
  | cons a ls ih =>
      intro i hi
      cases i with
      | zero =>
          simp [scatterv, exclusiveScan, List.take_left]
      | succ i =>
          have hi' : i < ls.length := by simpa using hi
          have hlen : i < (ls.map List.length).length := by simpa using hi'
          simp only [scatterv, List.map_cons, exclusiveScan, List.getD_cons_succ,
            List.flatten_cons, Nat.zero_add]
          have hoff : (exclusiveScan a.length (ls.map List.length)).getD i 0 =
              a.length + (exclusiveScan 0 (ls.map List.length)).getD i 0 := by
            rw [exclusiveScan_getD _ _ _ hlen, exclusiveScan_getD _ _ _ hlen, Nat.zero_add]
          rw [hoff, ← List.drop_drop, List.drop_left]
          simpa [scatterv] using ih i hi'

/-- Re-concatenating, in rank order, the scatter slices of a buffer whose
counts sum to the buffer length recovers the whole buffer: the balanced spans
cover the buffer without gaps or overlaps. -/
theorem flatten_scatterv {β : Type} (counts : List Nat) : ∀ L : List β,
    counts.sum = L.length →
    ((List.range counts.length).map
      (fun i => scatterv L counts (exclusiveScan 0 counts) i)).flatten = L := by
  induction counts with
  | nil =>
      intro L hL
      simp only [List.sum_nil] at hL
      simp [List.eq_nil_of_length_eq_zero hL.symm]
  | cons c cs ih =>
      intro L hL
      simp only [List.sum_cons] at hL
      rw [List.length_cons, List.range_succ_eq_map, List.map_cons, List.map_map,
        List.flatten_cons]
      have h0 : scatterv L (c :: cs) (exclusiveScan 0 (c :: cs)) 0 = L.take c := by
        simp [scatterv, exclusiveScan]
      have hstep : (List.range cs.length).map
          ((fun i => scatterv L (c :: cs) (exclusiveScan 0 (c :: cs)) i) ∘ Nat.succ) =
          (List.range cs.length).map
          (fun i => scatterv (L.drop c) cs (exclusiveScan 0 cs) i) := by
        apply List.map_eq_map_iff.mpr
        intro i hi
        have hi' : i < cs.length := List.mem_range.mp hi
        simp only [Function.comp_apply, scatterv, exclusiveScan, List.getD_cons_succ,
          Nat.zero_add]
        have hoff2 : (exclusiveScan c cs).getD i 0 = c + (exclusiveScan 0 cs).getD i 0 := by
          rw [exclusiveScan_getD _ _ _ hi', exclusiveScan_getD _ _ _ hi', Nat.zero_add]
        rw [hoff2, ← List.drop_drop]
      rw [h0, hstep, ih (L.drop c) (by rw [List.length_drop]; omega)]
      exact List.take_append_drop c L

/-! ### Protocol-level lemmas for `MPI_Improved.cpp` -/

namespace MPIImproved

theorem number_of_elements_array_length (batches : List (List Int)) :
    (number_of_elements_array batches).length = batches.length := by
  simp [number_of_elements_array]

theorem redistributed_length (N P : Nat) :
    (redistributed_number_of_elements_array N P).length = P := by
  rw [redistributed_number_of_elements_array, incFirst_length, List.length_replicate]

theorem redistributed_getD (N P i : Nat) (hi : i < P) :
    (redistributed_number_of_elements_array N P).getD i 0 =
      if i < N % P then N / P + 1 else N / P := by
  rw [redistributed_number_of_elements_array,
    incFirst_getD _ _ _ (by rwa [List.length_replicate])]
  have hrep : (List.replicate P (N / P)).getD i 0 = N / P := by
    rw [List.getD_eq_getElem _ _ (by rwa [List.length_replicate]), List.getElem_replicate]
  rw [hrep]

theorem redistributed_sum (N P : Nat) (hP : 0 < P) :
    (redistributed_number_of_elements_array N P).sum = N := by
  rw [redistributed_number_of_elements_array,
    incFirst_sum _ _ (by rw [List.length_replicate]; exact Nat.le_of_lt (Nat.mod_lt N hP))]
  rw [List.sum_replicate, smul_eq_mul, Nat.div_add_mod]

theorem flatten_length (batches : List (List Int)) :
    batches.flatten.length = total_elements batches := by
  rw [List.length_flatten]; rfl

/-- The consolidated buffer equals the concatenation of the per-peer batches
in rank order. -/
theorem combined_task_array_eq (batches : List (List Int)) :
    combined_task_array batches = batches.flatten :=
  gatherv_eq_flatten batches 0

theorem task_array_length (batches : List (List Int)) (i : Nat)
    (hi : i < batches.length) :
    (task_array batches i).length = num_received_tasks batches i := by
  rw [task_array, combined_task_array_eq, num_received_tasks]
  exact scatterv_scan_length _ _ _
    (by rw [redistributed_sum _ _ (Nat.zero_lt_of_lt hi), flatten_length])
    (by rwa [redistributed_length])

/-- The consolidated result buffer is the transform mapped over the whole
consolidated task buffer: the balanced spans reassemble without gaps or
overlaps. -/
theorem combined_results_array_eq {β : Type} (f : Int → β) (d : β)
    (batches : List (List Int)) (hP : 0 < batches.length) :
    combined_results_array f d batches = batches.flatten.map f := by
  set rcounts := redistributed_number_of_elements_array (total_elements batches) batches.length
    with hrc
  have hsum : rcounts.sum = total_elements batches := redistributed_sum _ _ hP
  have hlen : rcounts.length = batches.length := redistributed_length _ _
  have hchunks : ((List.range batches.length).map (results_array f batches)).map List.length
      = rcounts := by
    apply List.ext_get
    · simp [hlen]
    · intro n h1 h2
      have hn : n < batches.length := by simpa using h1
      rw [List.get_map, List.get_map]
      have : results_array f batches (List.get (List.range batches.length) ⟨n, by simpa using h1⟩)
          = results_array f batches n := by
        rw [List.get_range]
      rw [this, results_array, List.length_map,
        task_array_length batches n hn, num_received_tasks, ← hrc,
        List.getD_eq_getElem rcounts 0 h2]
      rfl
  rw [combined_results_array, ← hrc]
  have hdisp : displacements_array_3 batches = exclusiveScan 0 rcounts := rfl
  have hN : total_elements batches = rcounts.sum := hsum.symm
  rw [hdisp, hN, ← hchunks, gatherv_eq_flatten]
  have htasks : (List.range batches.length).map (results_array f batches)
      = ((List.range batches.length).map (task_array batches)).map (List.map f) := by
    rw [List.map_map]; rfl
  rw [htasks, ← List.map_flatten]
  congr 1
  have hrange : batches.length = rcounts.length := hlen.symm
  have : (List.range batches.length).map (task_array batches)
      = (List.range rcounts.length).map
          (fun i => scatterv batches.flatten rcounts (exclusiveScan 0 rcounts) i) := by
    rw [← hrange]
    apply List.map_eq_map_iff.mpr
    intro i _
    rw [task_array, combined_task_array_eq]
    rfl
  rw [this, flatten_scatterv rcounts batches.flatten (by rw [hsum, flatten_length])]

/-- Round-trip correctness of `MPI_Improved.cpp`: rank i's final result batch
is the transform mapped over rank i's original batch. -/
theorem final_results_array_eq {β : Type} (f : Int → β) (d : β)
    (batches : List (List Int)) (i : Nat) (hi : i < batches.length) :
    final_results_array f d batches i = (batches.getD i []).map f := by
  have hP : 0 < batches.length := Nat.zero_lt_of_lt hi
  rw [final_results_array, combined_results_array_eq f d batches hP]
  rw [show number_of_elements_array batches = batches.map List.length from rfl,
    show displacements_array_2 batches = exclusiveScan 0 (batches.map List.length) from rfl]
  rw [scatterv_map, scatterv_flatten batches i hi]

end MPIImproved

/-! ### The spans described by an exclusive prefix scan partition the range -/

theorem span_exists (counts : List Nat) : ∀ j, j < counts.sum →
    ∃ i, i < counts.length ∧ (counts.take i).sum ≤ j ∧
      j < (counts.take i).sum + counts.getD i 0 := by
  induction counts with
  | nil => intro j hj; simp at hj
  | cons c cs ih =>
      intro j hj
      by_cases hc : j < c
      · exact ⟨0, by simp, by simp, by simpa using hc⟩
      · have h1 : j - c < cs.sum := by
          simp only [List.sum_cons] at hj; omega
        obtain ⟨i, hi, hle, hlt⟩ := ih (j - c) h1
        refine ⟨i + 1, by simpa using Nat.succ_lt_succ hi, ?_, ?_⟩
        · simp only [List.take_succ_cons, List.sum_cons]; omega
        · simp only [List.take_succ_cons, List.sum_cons, List.getD_cons_succ]; omega

theorem span_disjoint (counts : List Nat) {j i i' : Nat} (h : i < i')
    (hi : i < counts.length)
    (hlt : j < (counts.take i).sum + counts.getD i 0)
    (hle : (counts.take i').sum ≤ j) : False := by
  have hmono : (counts.take (i + 1)).sum ≤ (counts.take i').sum := take_sum_mono counts h
  rw [take_sum_succ counts i hi] at hmono
  omega

theorem span_unique (counts : List Nat) (j i i' : Nat)
    (h1 : i < counts.length) (h2 : (counts.take i).sum ≤ j)
    (h3 : j < (counts.take i).sum + counts.getD i 0)
    (h4 : i' < counts.length) (h5 : (counts.take i').sum ≤ j)
    (h6 : j < (counts.take i').sum + counts.getD i' 0) : i = i' := by
  rcases Nat.lt_trichotomy i i' with h | h | h
  · exact absurd (span_disjoint counts h h1 h3 h5) (by simp)
  · exact h
  · exact absurd (span_disjoint counts h h4 h6 h2) (by simp)

/-- The exclusive prefix scan of a count vector of length P starts at 0,
satisfies the recurrence `offset(i+1) = offset(i) + count(i)`, and its spans
`[offset(i), offset(i) + count(i))` partition `[0, N)` exactly: every point
below the total lies in exactly one span. -/
theorem scan_partition (counts : List Nat) (P : Nat) (hlen : counts.length = P)
    (hP : 0 < P) (N : Nat) (hN : counts.sum = N) :
    (exclusiveScan 0 counts).getD 0 0 = 0 ∧
    (∀ i, i + 1 < P → (exclusiveScan 0 counts).getD (i + 1) 0 =
      (exclusiveScan 0 counts).getD i 0 + counts.getD i 0) ∧
    (∀ j, j < N → ∃! i, i < P ∧ (exclusiveScan 0 counts).getD i 0 ≤ j ∧
      j < (exclusiveScan 0 counts).getD i 0 + counts.getD i 0) := by
  subst hlen hN
  refine ⟨?_, ?_, ?_⟩
  · rw [exclusiveScan_getD counts 0 0 hP]; rfl
  · intro i hi
    rw [exclusiveScan_getD counts 0 (i + 1) hi,
      exclusiveScan_getD counts 0 i (Nat.lt_of_succ_lt hi),
      take_sum_succ counts i (Nat.lt_of_succ_lt hi)]
    omega
  · intro j hj
    obtain ⟨i, hi, hle, hlt⟩ := span_exists counts j hj
    refine ⟨i, ⟨hi, ?_, ?_⟩, ?_⟩
    · rwa [exclusiveScan_getD counts 0 i hi, Nat.zero_add]
    · rwa [exclusiveScan_getD counts 0 i hi, Nat.zero_add]
    · rintro y ⟨hy, hyle, hylt⟩
      rw [exclusiveScan_getD counts 0 y hy, Nat.zero_add] at hyle hylt
      exact span_unique counts j y i hy hyle hylt hi hle hlt

/-! ### Equivalence of the two source programs -/

/-- The task chunk delivered to rank i is the same in both programs: the only
difference is that `part_000` declares rank 0's receive count as
`equalized_total_elements_array[0]` instead of the scattered
`num_received_tasks`, and `MPI_Scatter` makes these equal. -/
theorem part000_task_array_eq (batches : List (List Int)) (i : Nat) :
    Part000.task_array batches i = MPIImproved.task_array batches i := by
  rw [Part000.task_array]
  have hcnt : (if i = 0 then
      (Part000.equalized_total_elements_array (Part000.total_elements batches)
        batches.length).getD 0 0
    else Part000.num_received_tasks batches i) =
      (Part000.equalized_total_elements_array (Part000.total_elements batches)
        batches.length).getD i 0 := by
    split
    · next h => rw [h]
    · rfl
  rw [hcnt, scatterv, List.take_take, Nat.min_self]
  rfl

/-- The per-rank result chunks agree between the two programs. -/
theorem part000_results_array_eq {β : Type} (f : Int → β) (batches : List (List Int))
    (i : Nat) : Part000.results_array f batches i = MPIImproved.results_array f batches i := by
  rw [Part000.results_array, MPIImproved.results_array, part000_task_array_eq]

/-- The final result batches delivered by the two near-duplicate programs are
identical on every rank, for every input configuration and every transform. -/
theorem part000_final_results_array_eq {β : Type} (f : Int → β) (d : β)
    (batches : List (List Int)) (i : Nat) :
    Part000.final_results_array f d batches i =
      MPIImproved.final_results_array f d batches i := by
  have hmap : (List.range batches.length).map (Part000.results_array f batches) =
      (List.range batches.length).map (MPIImproved.results_array f batches) :=
    List.map_eq_map_iff.mpr (fun j _ => part000_results_array_eq f batches j)
  rw [Part000.final_results_array, MPIImproved.final_results_array,
    Part000.combined_results_array, MPIImproved.combined_results_array, hmap]
  rfl

theorem scatterv_getD {β : Type} (L : List β) (counts offs : List Nat) (i k : Nat) (d : β)
    (hk : k < (scatterv L counts offs i).length) :
    (scatterv L counts offs i).getD k d = L.getD (offs.getD i 0 + k) d := by
  unfold scatterv at hk ⊢
  have hk' := hk
  rw [List.length_take, List.length_drop] at hk'
  have hk2 : offs.getD i 0 + k < L.length := by omega
  rw [List.getD_eq_getElem _ _ hk, List.getElem_take, List.getElem_drop,
    List.getD_eq_getElem _ _ hk2]

/-! ### The claims -/

/-- C1.  Round-trip identity: for every group of peers, every per-peer input
batch configuration, and every pure elementwise transform, the terminal
output of `MPI_Improved.cpp` satisfies
`FinalResultBatch_i = transform mapped over LocalBatch_i`, elementwise
`FinalResultBatch_i[k] = transform(LocalBatch_i[k])` for every k below the
batch length, regardless of the intermediate rebalancing. -/
theorem C1_round_trip_identity (β : Type) (f : Int → β) (d : β)
    (batches : List (List Int)) (i : Nat) (hi : i < batches.length) :
    MPIImproved.final_results_array f d batches i = (batches.getD i []).map f ∧
    ∀ k, k < (batches.getD i []).length →
      (MPIImproved.final_results_array f d batches i).getD k d =
        f ((batches.getD i []).getD k 0) := by
  refine ⟨MPIImproved.final_results_array_eq f d batches i hi, ?_⟩
  intro k hk
  rw [MPIImproved.final_results_array_eq f d batches i hi,
    List.getD_eq_getElem _ _ (by simpa using hk), List.getElem_map,
    List.getD_eq_getElem _ _ hk]

/-- Witness for C1 (spec example scenario 5): with `transform(x) = x * x`,
`LocalBatch_0 = [3, 4]` and `LocalBatch_1 = [5]`, peer 0's final result batch
is `[9, 16]`. -/
theorem C1_round_trip_identity_witness :
    MPIImproved.final_results_array (fun x : Int => x * x) 0 [[3, 4], [5]] 0 = [9, 16] := by
  have h := (C1_round_trip_identity Int (fun x : Int => x * x) 0 [[3, 4], [5]] 0
    (by decide)).1
  exact h.trans (by decide)

/-- C2.  Balancing algorithm: for every N ≥ 0 and P ≥ 1 the redistribution
counts equal `N / P + 1` for the first `N % P` peers and `N / P` for the
rest; in particular for N = 7 and P = 3 the counts are `[3, 2, 2]`. -/
theorem C2_balancing_algorithm :
    (∀ N P : Nat, 1 ≤ P → ∀ i, i < P →
      (MPIImproved.redistributed_number_of_elements_array N P).getD i 0 =
        if i < N % P then N / P + 1 else N / P) ∧
    MPIImproved.redistributed_number_of_elements_array 7 3 = [3, 2, 2] := by
  constructor
  · intro N P _ i hi
    exact MPIImproved.redistributed_getD N P i hi
  · decide

/-- Witness for C2 at N = 7, P = 3, i = 0. -/
theorem C2_balancing_algorithm_witness :
    (MPIImproved.redistributed_number_of_elements_array 7 3).getD 0 0 =
      if 0 < 7 % 3 then 7 / 3 + 1 else 7 / 3 :=
  C2_balancing_algorithm.1 7 3 (by decide) 0 (by decide)

/-- C3.  Balance bound: for every P ≥ 1 and every N ≥ 0 the balanced count
vector satisfies `max(balanced_count) - min(balanced_count) ≤ 1`. -/
theorem C3_balance_bound (N P : Nat) (hP : 1 ≤ P) (M m : Nat)
    (hM : (MPIImproved.redistributed_number_of_elements_array N P).maximum =
      (M : WithBot Nat))
    (hm : (MPIImproved.redistributed_number_of_elements_array N P).minimum =
      (m : WithTop Nat)) : M - m ≤ 1 := by
  have hbounds : ∀ x ∈ MPIImproved.redistributed_number_of_elements_array N P,
      x = N / P ∨ x = N / P + 1 := by
    intro x hx
    obtain ⟨y, hy, hxy⟩ :=
      mem_incFirst (by simpa [MPIImproved.redistributed_number_of_elements_array] using hx)
    have hyv : y = N / P := List.eq_of_mem_replicate hy
    omega
  have hMb := hbounds M (List.maximum_mem hM)
  have hmb := hbounds m (List.minimum_mem hm)
  omega

/-- Witness for C3 at N = 7, P = 3: the balanced counts `[3, 2, 2]` have
maximum 3 and minimum 2, and the spread is at most 1. -/
theorem C3_balance_bound_witness :
    (MPIImproved.redistributed_number_of_elements_array 7 3).maximum = (3 : WithBot Nat) ∧
    (MPIImproved.redistributed_number_of_elements_array 7 3).minimum = (2 : WithTop Nat) ∧
    3 - 2 ≤ 1 :=
  ⟨by decide, by decide, C3_balance_bound 7 3 (by decide) 3 2 (by decide) (by decide)⟩

/-- C4.  Conservation: the total computed by the coordinator is the sum of
the per-peer counts, and the balanced counts sum back to the same total. -/
theorem C4_conservation (batches : List (List Int)) (hP : 0 < batches.length) :
    MPIImproved.total_elements batches =
      (MPIImproved.number_of_elements_array batches).sum ∧
    (MPIImproved.redistributed_number_of_elements_array
      (MPIImproved.total_elements batches) batches.length).sum =
      MPIImproved.total_elements batches :=
  ⟨rfl, MPIImproved.redistributed_sum _ _ hP⟩

/-- Witness for C4 on the run with batches `[[1], [2, 3]]` (N = 3, P = 2). -/
theorem C4_conservation_witness :
    (MPIImproved.redistributed_number_of_elements_array
      (MPIImproved.total_elements [[1], [2, 3]]) (List.length [[1], [2, 3]])).sum =
      MPIImproved.total_elements [[1], [2, 3]] :=
  (C4_conservation [[1], [2, 3]] (by decide)).2

/-- C5.  Offset construction: for both the original count vector and the
balanced count vector, the displacement vector is the exclusive prefix sum of
the counts in ascending peer order — it starts at 0 and satisfies
`displacement(i+1) = displacement(i) + count(i)` — and the resulting
(offset, length) spans partition `[0, N)` exactly: every position below N
lies in exactly one span. -/
theorem C5_offset_construction (batches : List (List Int)) (hP : 0 < batches.length) :
    ((MPIImproved.displacements_array_2 batches).getD 0 0 = 0 ∧
      (∀ i, i + 1 < batches.length →
        (MPIImproved.displacements_array_2 batches).getD (i + 1) 0 =
          (MPIImproved.displacements_array_2 batches).getD i 0 +
            (MPIImproved.number_of_elements_array batches).getD i 0) ∧
      (∀ j, j < MPIImproved.total_elements batches → ∃! i, i < batches.length ∧
        (MPIImproved.displacements_array_2 batches).getD i 0 ≤ j ∧
        j < (MPIImproved.displacements_array_2 batches).getD i 0 +
          (MPIImproved.number_of_elements_array batches).getD i 0)) ∧
    ((MPIImproved.displacements_array_3 batches).getD 0 0 = 0 ∧
      (∀ i, i + 1 < batches.length →
        (MPIImproved.displacements_array_3 batches).getD (i + 1) 0 =
          (MPIImproved.displacements_array_3 batches).getD i 0 +
            (MPIImproved.redistributed_number_of_elements_array
              (MPIImproved.total_elements batches) batches.length).getD i 0) ∧
      (∀ j, j < MPIImproved.total_elements batches → ∃! i, i < batches.length ∧
        (MPIImproved.displacements_array_3 batches).getD i 0 ≤ j ∧
        j < (MPIImproved.displacements_array_3 batches).getD i 0 +
          (MPIImproved.redistributed_number_of_elements_array
            (MPIImproved.total_elements batches) batches.length).getD i 0)) :=
  ⟨scan_partition (MPIImproved.number_of_elements_array batches) batches.length
      (MPIImproved.number_of_elements_array_length batches) hP
      (MPIImproved.total_elements batches) rfl,
    scan_partition (MPIImproved.redistributed_number_of_elements_array
        (MPIImproved.total_elements batches) batches.length) batches.length
      (MPIImproved.redistributed_length _ _) hP
      (MPIImproved.total_elements batches) (MPIImproved.redistributed_sum _ _ hP)⟩

/-- Witness for C5 on batches `[[1, 2], [3]]`: the first displacement of the
origin plan is 0. -/
theorem C5_offset_construction_witness :
    (MPIImproved.displacements_array_2 [[1, 2], [3]]).getD 0 0 = 0 :=
  (C5_offset_construction [[1, 2], [3]] (by decide)).1.1

/-- C6.  Order-preserving consolidation: after the variable-length gather the
consolidated buffer holds, at global position `offset_i + k`, exactly peer
i's k-th input item — peer contributions in ascending rank order, item order
preserved within each contribution. -/
theorem C6_order_preserving_consolidation (batches : List (List Int)) (i k : Nat)
    (hi : i < batches.length) (hk : k < (batches.getD i []).length) :
    (MPIImproved.combined_task_array batches).getD
        ((MPIImproved.displacements_array_2 batches).getD i 0 + k) 0 =
      (batches.getD i []).getD k 0 := by
  have h := scatterv_flatten batches i hi
  have hk2 : k < (scatterv batches.flatten (batches.map List.length)
      (exclusiveScan 0 (batches.map List.length)) i).length := by
    rw [h]; exact hk
  rw [MPIImproved.combined_task_array_eq, ← h, scatterv_getD _ _ _ _ _ _ hk2]
  rfl

/-- Witness for C6 on batches `[[1, 2], [3]]` at peer 1, item 0: the
consolidated buffer holds 3 at global position `offset_1 + 0`. -/
theorem C6_order_preserving_consolidation_witness :
    (MPIImproved.combined_task_array [[1, 2], [3]]).getD
        ((MPIImproved.displacements_array_2 [[1, 2], [3]]).getD 1 0 + 0) 0 =
      (List.getD [[1, 2], [3]] 1 []).getD 0 0 :=
  C6_order_preserving_consolidation [[1, 2], [3]] 1 0 (by decide) (by decide)

/-- C7.  Determinism and partition-independence of balancing: two runs with
the same total N and the same peer count P compute identical balanced counts
and balanced displacements, however N was partitioned among the peers. -/
theorem C7_balancing_determinism (b1 b2 : List (List Int))
    (hP : b1.length = b2.length)
    (hN : MPIImproved.total_elements b1 = MPIImproved.total_elements b2) :
    MPIImproved.redistributed_number_of_elements_array
        (MPIImproved.total_elements b1) b1.length =
      MPIImproved.redistributed_number_of_elements_array
        (MPIImproved.total_elements b2) b2.length ∧
    MPIImproved.displacements_array_3 b1 = MPIImproved.displacements_array_3 b2 := by
  constructor
  · rw [hP, hN]
  · rw [MPIImproved.displacements_array_3, MPIImproved.displacements_array_3, hP, hN]

/-- Witness for C7: the runs `[[1, 2], []]` and `[[], [3, 4]]` partition
N = 2 between P = 2 peers differently but get the same balanced plan. -/
theorem C7_balancing_determinism_witness :
    MPIImproved.redistributed_number_of_elements_array
        (MPIImproved.total_elements [[1, 2], []]) (List.length [[1, 2], []]) =
      MPIImproved.redistributed_number_of_elements_array
        (MPIImproved.total_elements [[], [3, 4]]) (List.length [[], [3, 4]]) :=
  (C7_balancing_determinism [[1, 2], []] [[], [3, 4]] (by decide) (by decide)).1

/-- C8.  Zero-length peer: a peer whose input batch is empty contributes a
zero-length span to the consolidation and ends the run with an empty final
result batch; it is part of every collective exchange (each per-rank function
of the protocol is defined at its index). -/
theorem C8_zero_length_peer (β : Type) (f : Int → β) (d : β)
    (batches : List (List Int)) (i : Nat) (hi : i < batches.length)
    (hempty : batches.getD i [] = []) :
    (MPIImproved.number_of_elements_array batches).getD i 0 = 0 ∧
    MPIImproved.final_results_array f d batches i = [] := by
  constructor
  · have h1 : i < (batches.map List.length).length := by simpa using hi
    rw [show MPIImproved.number_of_elements_array batches = batches.map List.length from rfl,
      List.getD_eq_getElem _ _ h1, List.getElem_map, ← List.getD_eq_getElem batches [] hi,
      hempty]
    rfl
  · rw [MPIImproved.final_results_array_eq f d batches i hi, hempty]
    rfl

/-- Witness for C8 on batches `[[3], [], [1, 2]]`: peer 1 is empty and its
final result batch is empty. -/
theorem C8_zero_length_peer_witness :
    MPIImproved.final_results_array (fun x : Int => x) 0 [[3], [], [1, 2]] 1 = [] :=
  (C8_zero_length_peer Int (fun x : Int => x) 0 [[3], [], [1, 2]] 1
    (by decide) (by decide)).2

/-- C9.  Equivalence of the two implementations: with the same peers, the
same input batches and the same transform, `src/MPI_Improved.cpp` and
`src/unnamed/part_000` deliver identical final result batches to every rank;
the differing barrier placement and rank-branch structure change no delivered
result. -/
theorem C9_implementation_equivalence (β : Type) (f : Int → β) (d : β)
    (batches : List (List Int)) (i : Nat) :
    Part000.final_results_array f d batches i =
      MPIImproved.final_results_array f d batches i :=
  part000_final_results_array_eq f d batches i

/-- C10.  In `MPI_Improved.cpp` the buffer-size variable `total_elements`
(line 75) is assigned only on rank 0 (line 84) but read by every rank when
constructing `combined_task_array` (line 111) and `combined_results_array`
(line 213): on any non-coordinator rank (here rank 1, gathered counts
`[2, 5]`) the size read is uninitialized (`none`), while on rank 0 it is the
initialized total. -/
theorem C10_uninitialized_size :
    MPIImproved.combined_task_array_size 1 [2, 5] = none ∧
    MPIImproved.combined_task_array_size 0 [2, 5] = some 7 := by
  constructor <;> rfl

end MPI
